import Mathlib

/-!
Verification of the terminal rendering engine of cargo-explain
(src/main.rs).  Strings are modelled as lists of characters; machine
integers (usize) as Nat, with the panicking subtraction in
wrap_and_prefix_text modelled by Option (none = panic).  The external
collaborators (the textwrap crate's greedy wrapper, the unicode-width
column accounting, syntect's LinesWithEndings iterator and per-line
escape, ansi_term's style prefixes/suffixes) are modelled from their
documented behavior, as summarised by the spec; everything else is a
direct translation of the Rust source.
-/

set_option autoImplicit false

namespace CargoExplain

/-- Convert a Lean string literal to the character-list representation. -/
def chs (s : String) : List Char := s.data

/-- ANSI reset escape sequence, const ANSI_RESET in main.rs. -/
def ANSI_RESET : List Char := chs ("\x1B[0m")

/-- Models Rust's char::len_utf8 (the byte length str::len sums). -/
def utf8Len (c : Char) : Nat :=
  if c.toNat < 0x80 then 1
  else if c.toNat < 0x800 then 2
  else if c.toNat < 0x10000 then 3
  else 4

/-- Byte length of a string, Rust's str::len (String::len). -/
def byteLen (s : List Char) : Nat := (s.map utf8Len).sum

/-- East-Asian-wide code points (models the wide ranges of the
unicode-width crate used by textwrap for column accounting). -/
def isWideChar (n : Nat) : Bool :=
  (0x1100 ≤ n && n ≤ 0x115F) || (0x2E80 ≤ n && n ≤ 0xA4CF) ||
  (0xAC00 ≤ n && n ≤ 0xD7A3) || (0xF900 ≤ n && n ≤ 0xFAFF) ||
  (0xFE10 ≤ n && n ≤ 0xFE19) || (0xFE30 ≤ n && n ≤ 0xFE6F) ||
  (0xFF00 ≤ n && n ≤ 0xFF60) || (0xFFE0 ≤ n && n ≤ 0xFFE6) ||
  (0x20000 ≤ n && n ≤ 0x3FFFD)

/-- C0/C1 control characters (zero columns in unicode-width). -/
def isCtrlChar (n : Nat) : Bool := n < 0x20 || (0x7F ≤ n && n < 0xA0)

/-- Display width of one character in terminal columns (models the
unicode-width crate). -/
def charWidth (c : Char) : Nat :=
  if isCtrlChar c.toNat then 0 else if isWideChar c.toNat then 2 else 1

/-- Display width of a string in terminal columns. -/
def strWidth (s : List Char) : Nat := (s.map charWidth).sum

/-- Whitespace per Rust's char::is_whitespace (the White_Space
property; the members relevant to terminal text). -/
def isWs (c : Char) : Bool :=
  c = ' ' || c = '\t' || c = '\n' || c = '\r' ||
  c = '\x0b' || c = '\x0c' || c.toNat = 0x85 || c.toNat = 0xA0 ||
  c.toNat = 0x2028 || c.toNat = 0x2029

/-- Accumulator pass of splitWords. -/
def splitWordsAux : List Char → List Char → List (List Char)
  | [], acc => if acc.isEmpty then [] else [acc.reverse]
  | c :: cs, acc =>
      if isWs c then
        if acc.isEmpty then splitWordsAux cs []
        else acc.reverse :: splitWordsAux cs []
      else splitWordsAux cs (c :: acc)

/-- Split a string into whitespace-separated words (models
str::split_whitespace, the word source of textwrap 0.11's wrapper,
which treats newlines like any other separator). -/
def splitWords (s : List Char) : List (List Char) := splitWordsAux s []

/-- Break one overlong word into chunks: each chunk takes at least one
character and then extends while the chunk stays within m columns
(models textwrap's break_words=true default). -/
def chunkAux (m : Nat) : List Char → Nat → List Char → List (List Char)
  | [], _, acc => if acc.isEmpty then [] else [acc.reverse]
  | c :: cs, w, acc =>
      if acc.isEmpty then chunkAux m cs (charWidth c) [c]
      else if w + charWidth c ≤ m then chunkAux m cs (w + charWidth c) (c :: acc)
      else acc.reverse :: chunkAux m cs (charWidth c) [c]

/-- Chunks of a word for break_words handling. -/
def chunkWord (m : Nat) (wd : List Char) : List (List Char) := chunkAux m wd 0 []

/-- Split a chunk list into (full lines, last chunk): all chunks but
the last are emitted as complete lines, the last starts the next line. -/
def emitChunks : List (List Char) → List (List Char) × List Char
  | [] => ([], [])
  | [c] => ([], c)
  | c :: cs => let p := emitChunks cs; (c :: p.1, p.2)

/-- Greedy fill (models textwrap 0.11's wrap with its defaults): place
each word on the current line when it fits with a single joining
space, otherwise start a new line; a word wider than m columns is
broken into chunks.  The final (possibly empty) line is always
emitted, so wrapping any text yields at least one line. -/
def greedyAux (m : Nat) : List (List Char) → List Char → List (List Char)
  | [], line => [line]
  | wd :: tl, line =>
      if line.isEmpty then
        if strWidth wd ≤ m then greedyAux m tl wd
        else
          let p := emitChunks (chunkWord m wd)
          p.1 ++ greedyAux m tl p.2
      else if strWidth line + 1 + strWidth wd ≤ m then
        greedyAux m tl (line ++ ' ' :: wd)
      else
        line ::
          (if strWidth wd ≤ m then greedyAux m tl wd
           else
             let p := emitChunks (chunkWord m wd)
             p.1 ++ greedyAux m tl p.2)

/-- The wrapped lines of a text at m columns, textwrap::wrap. -/
def wrapLines (m : Nat) (text : List Char) : List (List Char) :=
  greedyAux m (splitWords text) []

/-- Join lines with newline separators. -/
def joinNl : List (List Char) → List Char
  | [] => []
  | [l] => l
  | l :: ls => l ++ '\n' :: joinNl ls

/-- textwrap::fill: wrapped lines joined by newlines. -/
def fill (m : Nat) (text : List Char) : List Char := joinNl (wrapLines m text)

/-- Split a string at every newline (the emitted lines of an output
string; an empty string is one empty line). -/
def splitOnNl : List Char → List (List Char)
  | [] => [[]]
  | c :: cs =>
      if c = '\n' then [] :: splitOnNl cs
      else
        match splitOnNl cs with
        | [] => [[c]]
        | l :: ls => (c :: l) :: ls

/-- Boolean string-prefix test. -/
def startsWith : List Char → List Char → Bool
  | [], _ => true
  | _ :: _, [] => false
  | a :: p, b :: s => a == b && startsWith p s

/-- The enum Prefix of main.rs (None / Simple / List). -/
inductive Pfx
  | None
  | Simple (p : List Char)
  | List (p : List Char)

/-- The push-loop of the Prefix::Simple arm: for each line push the
marker, the line, and a newline. -/
def prefixConcat (p : List Char) : List (List Char) → List Char
  | [] => []
  | l :: ls => p ++ l ++ '\n' :: prefixConcat p ls

/-- fn wrap_and_prefix_text of main.rs.  The Rust code computes
width - p.len() on usize; when p.len() > width that subtraction
overflows, which is a panic (modelled as none).  The final
out.truncate(out.len() - 1) removes the trailing newline byte,
modelled by List.dropLast. -/
def wrap_and_prefix_text (text : List Char) (pfx : Pfx) (terminal_width : Option Nat) :
    Option (List Char) :=
  match terminal_width with
  | some width =>
    match pfx with
    | .None => some (fill width text)
    | .Simple p =>
        if byteLen p ≤ width then
          some (prefixConcat p (wrapLines (width - byteLen p) text)).dropLast
        else none
    | .List p =>
        if byteLen p ≤ width then
          let blank : List Char := List.replicate (byteLen p) ' '
          match wrapLines (width - byteLen p) text with
          | [] => some []
          | first :: rest =>
              some (p ++ first ++ '\n' :: prefixConcat blank rest).dropLast
        else none
  | none =>
    match pfx with
    | .Simple p => some (p ++ text)
    | .List p => some (p ++ text)
    | .None => some text

/-- Accumulator pass of linesWithEndings. -/
def lweAux : List Char → List Char → List (List Char)
  | [], acc => if acc.isEmpty then [] else [acc.reverse]
  | c :: cs, acc =>
      if c = '\n' then (acc.reverse ++ ['\n']) :: lweAux cs []
      else lweAux cs (c :: acc)

/-- syntect's LinesWithEndings iterator: split the text after every
newline, keeping each terminator with its line; the final piece (with
no terminator) is yielded only when nonempty. -/
def linesWithEndings (s : List Char) : List (List Char) := lweAux s []

/-- The highlight-and-escape loop of fn highlight_code: each line is
escaped by the external highlighter hl, which threads its parser state
of type σ across the lines; the escaped outputs are concatenated. -/
def escapeLines {σ : Type} (hl : σ → List Char → List Char × σ) :
    σ → List (List Char) → List Char
  | _, [] => []
  | st, l :: ls => (hl st l).1 ++ escapeLines hl (hl st l).2 ls

/-- fn highlight_code of main.rs: iterate LinesWithEndings, escape
each line, concatenate, and append one ANSI reset for the block. -/
def highlight_code {σ : Type} (hl : σ → List Char → List Char × σ) (s0 : σ)
    (code : List Char) : List Char :=
  escapeLines hl s0 (linesWithEndings code) ++ ANSI_RESET

/-- Inline span tree of the markdown crate. -/
inductive Span
  | Break
  | Text (s : List Char)
  | Code (s : List Char)
  | Link (text href : List Char) (title : Option (List Char))
  | Image (alt src : List Char) (title : Option (List Char))
  | Emphasis (spans : List Span)
  | Strong (spans : List Span)

/-- ansi_term escape constants: Style::new().underline() /
.italic() / .bold() prefixes; every styled suffix is the reset. -/
def UNDERLINE_ON : List Char := chs ("\x1B[4m")

/-- Italic style-on escape. -/
def ITALIC_ON : List Char := chs ("\x1B[3m")

/-- Bold style-on escape. -/
def BOLD_ON : List Char := chs ("\x1B[1m")

mutual

/-- One span of fn join_spans.  ho is the external single-line
highlighter escape used for Span::Code (a fresh HighlightLines per
occurrence, so stateless here).  ansi_term's painted Display form is
prefix ++ content ++ suffix, and the Rust code appends one more
explicit suffix after it. -/
def renderSpan (ho : List Char → List Char) : Span → List Char
  | .Break => chs ("\n")
  | .Text t => t
  | .Code c => ho c ++ ANSI_RESET
  | .Link t href _ =>
      t ++ chs (" (") ++ UNDERLINE_ON ++ href ++ ANSI_RESET ++ ANSI_RESET ++ chs (")")
  | .Image alt src title =>
      chs ("[") ++ (match title with | some t => t | none => chs ("Image")) ++
      chs (": ") ++ alt ++ chs ("] (") ++ UNDERLINE_ON ++ src ++ ANSI_RESET ++
      ANSI_RESET ++ chs (")")
  | .Emphasis spans => ITALIC_ON ++ joinSpans ho spans ++ ANSI_RESET ++ ANSI_RESET
  | .Strong spans => BOLD_ON ++ joinSpans ho spans ++ ANSI_RESET ++ ANSI_RESET

/-- fn join_spans of main.rs: concatenate the rendered spans. -/
def joinSpans (ho : List Char → List Char) : List Span → List Char
  | [] => []
  | s :: rest => renderSpan ho s ++ joinSpans ho rest

end

mutual

/-- Block tree of the markdown crate (payload of OrderedList's list
type is ignored by the renderer; modelled as a Nat). -/
inductive Block
  | Header (spans : List Span) (level : Nat)
  | Paragraph (spans : List Span)
  | Blockquote (blocks : List Block)
  | CodeBlock (lang : Option (List Char)) (code : List Char)
  | OrderedList (items : List ListItem) (typ : Nat)
  | UnorderedList (items : List ListItem)
  | Raw (s : List Char)
  | Hr

/-- List items of the markdown crate. -/
inductive ListItem
  | Simple (spans : List Span)
  | Paragraph (blocks : List Block)

end

/-- The quote marker pushed by the Block::Blockquote arm. -/
def QUOTE_MARKER : List Char := chs ("║ ")

/-- The list marker pushed by both list arms. -/
def LIST_MARKER : List Char := chs ("* ")

mutual

/-- fn print_block of main.rs, as the text it writes to stdout
(println!("{}\n", x) emits x followed by two newlines).  hl/s0 model
the stateful block highlighter (syntect), ho the single-line escape
used for inline code.  A panic anywhere (from wrap_and_prefix_text)
propagates as none. -/
def printBlock {σ : Type} (hl : σ → List Char → List Char × σ) (s0 : σ)
    (ho : List Char → List Char) (w : Option Nat) (pfx : Pfx) (b : Block) :
    Option (List Char) :=
  match b with
  | .Header spans _ => do
      let out ← wrap_and_prefix_text (joinSpans ho spans) pfx w
      pure (out ++ chs ("\n\n"))
  | .Paragraph spans => do
      let out ← wrap_and_prefix_text (joinSpans ho spans) pfx w
      pure (out ++ chs ("\n\n"))
  | .Blockquote blocks => printQuoteBlocks hl s0 ho w blocks
  | .CodeBlock _ code => some (highlight_code hl s0 code ++ chs ("\n\n"))
  | .OrderedList items _ => do
      let out ← printItemsO hl s0 ho w items
      pure (out ++ chs ("\n"))
  | .UnorderedList items => do
      let out ← printItemsU hl s0 ho w items
      pure (out ++ chs ("\n"))
  | .Raw s => some (s ++ chs ("\n\n"))
  | .Hr =>
      match w with
      | some width => some (List.replicate width '━' ++ chs ("\n\n"))
      | none => some (chs ("━━━━━\n\n"))

/-- The loop of the Block::Blockquote arm: each child is rendered
with the fixed prefix Simple("║ "), discarding the incoming prefix. -/
def printQuoteBlocks {σ : Type} (hl : σ → List Char → List Char × σ) (s0 : σ)
    (ho : List Char → List Char) (w : Option Nat) (bs : List Block) :
    Option (List Char) :=
  match bs with
  | [] => some []
  | b :: rest => do
      let x ← printBlock hl s0 ho w (.Simple QUOTE_MARKER) b
      let y ← printQuoteBlocks hl s0 ho w rest
      pure (x ++ y)

/-- The item loop of the Block::OrderedList arm (println!("{}", out)
emits out plus one newline). -/
def printItemsO {σ : Type} (hl : σ → List Char → List Char × σ) (s0 : σ)
    (ho : List Char → List Char) (w : Option Nat) (items : List ListItem) :
    Option (List Char) :=
  match items with
  | [] => some []
  | .Simple spans :: rest => do
      let out ← wrap_and_prefix_text (joinSpans ho spans) (.List LIST_MARKER) w
      let r ← printItemsO hl s0 ho w rest
      pure (out ++ '\n' :: r)
  | .Paragraph blocks :: rest => do
      let x ← printItemParaO hl s0 ho w blocks
      let r ← printItemsO hl s0 ho w rest
      pure (x ++ r)

/-- The inner block loop of a ListItem::Paragraph in an ordered list:
each sub-block rendered with prefix List("* "). -/
def printItemParaO {σ : Type} (hl : σ → List Char → List Char × σ) (s0 : σ)
    (ho : List Char → List Char) (w : Option Nat) (bs : List Block) :
    Option (List Char) :=
  match bs with
  | [] => some []
  | b :: rest => do
      let x ← printBlock hl s0 ho w (.List LIST_MARKER) b
      let y ← printItemParaO hl s0 ho w rest
      pure (x ++ y)

/-- The item loop of the Block::UnorderedList arm (textually the same
code as the ordered arm in main.rs). -/
def printItemsU {σ : Type} (hl : σ → List Char → List Char × σ) (s0 : σ)
    (ho : List Char → List Char) (w : Option Nat) (items : List ListItem) :
    Option (List Char) :=
  match items with
  | [] => some []
  | .Simple spans :: rest => do
      let out ← wrap_and_prefix_text (joinSpans ho spans) (.List LIST_MARKER) w
      let r ← printItemsU hl s0 ho w rest
      pure (out ++ '\n' :: r)
  | .Paragraph blocks :: rest => do
      let x ← printItemParaU hl s0 ho w blocks
      let r ← printItemsU hl s0 ho w rest
      pure (x ++ r)

/-- The inner block loop of a ListItem::Paragraph in an unordered
list. -/
def printItemParaU {σ : Type} (hl : σ → List Char → List Char × σ) (s0 : σ)
    (ho : List Char → List Char) (w : Option Nat) (bs : List Block) :
    Option (List Char) :=
  match bs with
  | [] => some []
  | b :: rest => do
      let x ← printBlock hl s0 ho w (.List LIST_MARKER) b
      let y ← printItemParaU hl s0 ho w rest
      pure (x ++ y)

end

/-- Concatenation of a list of strings. -/
def joinAll : List (List Char) → List Char
  | [] => []
  | l :: ls => l ++ joinAll ls

/-- Byte length of the marker carried by a prefix policy. -/
def pfxBytes : Pfx → Nat
  | .None => 0
  | .Simple p => byteLen p
  | .List p => byteLen p

/-- The marker of a prefix policy carries no newline (true of both
markers the program uses). -/
def pfxNoNl : Pfx → Bool
  | .None => true
  | .Simple p => decide ('\n' ∉ p)
  | .List p => decide ('\n' ∉ p)

/-- Paragraph-or-Header test for blockquote children. -/
def isTextualBlock : Block → Bool
  | .Header _ _ => true
  | .Paragraph _ => true
  | _ => false

/-- Nested blockquote tower of the given depth around a base block. -/
def nestBq : Nat → Block → Block
  | 0, b => b
  | n + 1, b => .Blockquote [nestBq n b]

end CargoExplain

namespace CargoExplain

/-! ## Basic width lemmas -/

theorem strWidth_append (a b : List Char) :
    strWidth (a ++ b) = strWidth a + strWidth b := by
  simp [strWidth]

theorem strWidth_cons (c : Char) (s : List Char) :
    strWidth (c :: s) = charWidth c + strWidth s := by
  simp [strWidth]

theorem strWidth_replicate_space (n : Nat) :
    strWidth (List.replicate n ' ') = n := by
  induction n with
  | zero => rfl
  | succ k ih =>
      have h1 : charWidth ' ' = 1 := by decide
      simp [List.replicate_succ, strWidth_cons, ih, h1]
      omega

theorem charWidth_le_utf8Len (c : Char) : charWidth c ≤ utf8Len c := by
  have h1 : 1 ≤ utf8Len c := by
    unfold utf8Len
    split
    · omega
    · split
      · omega
      · split
        · omega
        · omega
  unfold charWidth
  by_cases hc : isCtrlChar c.toNat
  · simp [hc]
  · by_cases hw : isWideChar c.toNat
    · have hge : 0x1100 ≤ c.toNat := by
        simp [isWideChar, Bool.or_eq_true, Bool.and_eq_true,
          decide_eq_true_eq] at hw
        omega
      have h3 : 3 ≤ utf8Len c := by
        unfold utf8Len
        split
        · omega
        · split
          · omega
          · split
            · omega
            · omega
      simp [hc, hw]
      omega
    · simp [hc, hw]
      omega

theorem strWidth_le_byteLen (s : List Char) : strWidth s ≤ byteLen s := by
  induction s with
  | nil => simp [strWidth, byteLen]
  | cons c cs ih =>
      have := charWidth_le_utf8Len c
      simp [strWidth, byteLen] at *
      omega

/-! ## C2: width = None behavior -/

/-- C2 (counterexample): with width None and a Simple prefix the
wrapper does not return the text unchanged: the marker is prepended. -/
theorem C2_counterexample :
    wrap_and_prefix_text (chs ("abc")) (Pfx.Simple (chs ("║ "))) none ≠
      some (chs ("abc")) := by
  decide

/-- C2 (amended): with width = None the wrapper returns the text
unchanged only for Prefix::None; for Simple(p) and List(p) it returns
the text with the marker p prepended once at the front. -/
theorem C2_width_none (text : List Char) (pfx : Pfx) :
    wrap_and_prefix_text text pfx none =
      some (match pfx with
            | .None => text
            | .Simple p => p ++ text
            | .List p => p ++ text) := by
  cases pfx <;> rfl

/-! ## C3: width underflow -/

/-- C3: the code does not clamp the wrap width.  With terminal width 2
and the quote marker "║ " (display width 2 ≥ 2, byte length 4) the
code computes 2 - 4 on usize, which overflows — a panic, not a clamp
to 1 column; the panic is the modelled value none. -/
theorem C3_underflow_eval :
    strWidth (chs ("║ ")) = 2 ∧
    wrap_and_prefix_text (chs ("hello")) (Pfx.Simple (chs ("║ "))) (some 2) = none := by
  decide

/-! ## C4: byte length instead of display width -/

/-- C4: the hanging-prefix arm accounts the marker by its byte length
(the FIXME in main.rs records this defect): for the marker "║ "
(display width 2, byte length 4) at width 9 the body is wrapped to
9 - 4 = 5 columns and the continuation line is indented by 4 blank
columns, not by the marker's display width 2. -/
theorem C4_bytelen_eval :
    wrap_and_prefix_text (chs ("aaa bbb")) (Pfx.List (chs ("║ "))) (some 9) =
      some (chs ("║ aaa\n    bbb")) ∧
    strWidth (List.replicate (byteLen (chs ("║ "))) ' ') = 4 ∧
    strWidth (chs ("║ ")) = 2 := by
  decide

/-! ## C8: block-mode highlighting -/

theorem lweAux_join (s acc : List Char) :
    joinAll (lweAux s acc) = acc.reverse ++ s := by
  induction s generalizing acc with
  | nil =>
      by_cases h : acc.isEmpty
      · simp [lweAux, h, joinAll, List.isEmpty_iff.mp h]
      · simp [lweAux, h, joinAll]
  | cons c cs ih =>
      by_cases h : c = '\n'
      · simp [lweAux, h, joinAll, ih]
      · simp [lweAux, h, ih]

theorem linesWithEndings_join (code : List Char) :
    joinAll (linesWithEndings code) = code := by
  simpa using lweAux_join code []

theorem escapeLines_id (st : Unit) (ls : List (List Char)) :
    escapeLines (fun (s : Unit) l => (l, s)) st ls = joinAll ls := by
  induction ls generalizing st with
  | nil => rfl
  | cons l rest ih => simp [escapeLines, joinAll, ih]

/-- C8: block-mode highlighting walks the code line by line with the
terminators kept on the lines (joining the pieces restores the code
exactly), concatenates the per-line escaped output — threading the
highlighter state across lines — and appends exactly one trailing
ANSI reset for the whole block; with a pass-through escape the output
is precisely the code followed by one reset. -/
theorem C8_highlight {σ : Type} (hl : σ → List Char → List Char × σ) (s0 : σ)
    (code : List Char) :
    highlight_code hl s0 code =
      escapeLines hl s0 (linesWithEndings code) ++ ANSI_RESET ∧
    joinAll (linesWithEndings code) = code ∧
    highlight_code (fun (s : Unit) l => (l, s)) () code = code ++ ANSI_RESET := by
  refine ⟨rfl, linesWithEndings_join code, ?_⟩
  unfold highlight_code
  rw [escapeLines_id, linesWithEndings_join]

/-! ## C9: CodeBlock / Raw / Hr ignore the prefix -/

/-- C9: the rendered output of a CodeBlock, Raw, or HorizontalRule
block is identical for any two accumulated prefixes: those three arms
never consult the prefix, so e.g. a code block inside a blockquote
carries no quote marker. -/
theorem C9_ignores {σ : Type} (hl : σ → List Char → List Char × σ) (s0 : σ)
    (ho : List Char → List Char) (w : Option Nat) (p q : Pfx)
    (lang : Option (List Char)) (code text : List Char) :
    printBlock hl s0 ho w p (.CodeBlock lang code) =
      printBlock hl s0 ho w q (.CodeBlock lang code) ∧
    printBlock hl s0 ho w p (.Raw text) = printBlock hl s0 ho w q (.Raw text) ∧
    printBlock hl s0 ho w p .Hr = printBlock hl s0 ho w q .Hr :=
  ⟨rfl, rfl, rfl⟩

/-! ## C10: ordered lists render as unordered lists -/

theorem itemParaOU_eq {σ : Type} (hl : σ → List Char → List Char × σ) (s0 : σ)
    (ho : List Char → List Char) (w : Option Nat) (bs : List Block) :
    printItemParaO hl s0 ho w bs = printItemParaU hl s0 ho w bs := by
  induction bs with
  | nil => rfl
  | cons b rest ih => simp [printItemParaO, printItemParaU, ih]

theorem itemsOU_eq {σ : Type} (hl : σ → List Char → List Char × σ) (s0 : σ)
    (ho : List Char → List Char) (w : Option Nat) (items : List ListItem) :
    printItemsO hl s0 ho w items = printItemsU hl s0 ho w items := by
  induction items with
  | nil => rfl
  | cons it rest ih =>
      cases it <;> simp [printItemsO, printItemsU, ih, itemParaOU_eq]

/-- C10: OrderedList(items, t) renders exactly as UnorderedList(items)
for every item sequence and every list-type payload t: the payload is
ignored and both arms mark every simple item with "* ". -/
theorem C10_ordered_unordered {σ : Type} (hl : σ → List Char → List Char × σ)
    (s0 : σ) (ho : List Char → List Char) (w : Option Nat) (p : Pfx)
    (items : List ListItem) (typ : Nat) :
    printBlock hl s0 ho w p (.OrderedList items typ) =
      printBlock hl s0 ho w p (.UnorderedList items) := by
  simp [printBlock, itemsOU_eq]

/-! ## C5: nested blockquote markers replace rather than concatenate -/

theorem bq_collapse {σ : Type} (hl : σ → List Char → List Char × σ) (s0 : σ)
    (ho : List Char → List Char) (w : Option Nat) (p : Pfx) (bs : List Block) :
    printBlock hl s0 ho w p (.Blockquote [.Blockquote bs]) =
      printBlock hl s0 ho w p (.Blockquote bs) := by
  show (do
      let x ← printBlock hl s0 ho w (.Simple QUOTE_MARKER) (.Blockquote bs)
      let y ← printQuoteBlocks hl s0 ho w []
      pure (x ++ y) : Option (List Char)) = _
  cases h : printQuoteBlocks hl s0 ho w bs <;>
    simp [printBlock, printQuoteBlocks, h]

/-- C5 (counterexample): a quote nested in a quote renders with a
single quote marker — identical to the unnested quote — instead of the
concatenated marker "║ ║ " the claim requires. -/
theorem C5_counterexample :
    printBlock (fun (s : Unit) l => (l, s)) () (fun l => l) (some 20) Pfx.None
        (Block.Blockquote [Block.Blockquote [Block.Paragraph [Span.Text (chs ("a"))]]]) =
      some (chs ("║ a\n\n")) ∧
    startsWith (chs ("║ ║ ")) (chs ("║ a\n\n")) = false := by
  constructor
  · rw [bq_collapse]
    decide
  · decide

/-- C5 (amended): the Blockquote arm discards the accumulated prefix:
the rendered output is the same for any two incoming prefixes, and a
quote nested directly inside another quote renders exactly as the
inner quote alone — markers replace the outer prefix instead of
concatenating. -/
theorem C5_replacement {σ : Type} (hl : σ → List Char → List Char × σ) (s0 : σ)
    (ho : List Char → List Char) (w : Option Nat) (p q : Pfx) (bs : List Block) :
    printBlock hl s0 ho w p (.Blockquote bs) =
      printBlock hl s0 ho w q (.Blockquote bs) ∧
    printBlock hl s0 ho w p (.Blockquote [.Blockquote bs]) =
      printBlock hl s0 ho w p (.Blockquote bs) :=
  ⟨rfl, bq_collapse hl s0 ho w p bs⟩

/-! ## C7: no recursion guard -/

theorem nest_collapse {σ : Type} (hl : σ → List Char → List Char × σ) (s0 : σ)
    (ho : List Char → List Char) (w : Option Nat) (n : Nat) (b : Block) (p : Pfx) :
    printBlock hl s0 ho w p (nestBq (n + 1) b) =
      printBlock hl s0 ho w p (.Blockquote [b]) := by
  induction n generalizing p with
  | zero => rfl
  | succ k ih =>
      have h1 : printBlock hl s0 ho w p (nestBq (k + 1 + 1) b) =
          printBlock hl s0 ho w p (.Blockquote [nestBq (k + 1) b]) := rfl
      rw [h1, ← bq_collapse hl s0 ho w p [b]]
      show (do
          let x ← printBlock hl s0 ho w (.Simple QUOTE_MARKER) (nestBq (k + 1) b)
          let y ← printQuoteBlocks hl s0 ho w []
          pure (x ++ y) : Option (List Char)) = _
      rw [ih (.Simple QUOTE_MARKER)]
      rfl

/-- C7 (counterexample): a blockquote tower of depth 65 — deeper than
the claimed maximum of 64 — renders completely and successfully (no
reported failure, no abandoned subtree). -/
theorem C7_counterexample :
    printBlock (fun (s : Unit) l => (l, s)) () (fun l => l) (some 20) Pfx.None
      (nestBq 65 (Block.Paragraph [Span.Text (chs ("a"))])) = some (chs ("║ a\n\n")) := by
  have h : (65 : Nat) = 64 + 1 := rfl
  rw [h, nest_collapse]
  decide

/-- C7 (amended): print_block has no depth guard at all: rendering is
total on every finite tree, and a quote tower of any depth n + 1
renders exactly as a depth-1 quote — no failure is ever reported for
deep trees. -/
theorem C7_unbounded {σ : Type} (hl : σ → List Char → List Char × σ) (s0 : σ)
    (ho : List Char → List Char) (w : Option Nat) (p : Pfx) (n : Nat) (b : Block) :
    printBlock hl s0 ho w p (nestBq (n + 1) b) =
      printBlock hl s0 ho w p (.Blockquote [b]) :=
  nest_collapse hl s0 ho w n b p

/-! ## C1 and C6 counterexamples -/

/-- C1 (counterexample): the rendered Blockquote [Paragraph "a"] at
width 20 is "║ a\n\n"; the blank separator lines after the paragraph
are empty and do not begin with the quote marker. -/
theorem C1_counterexample :
    printBlock (fun (s : Unit) l => (l, s)) () (fun l => l) (some 20) Pfx.None
      (Block.Blockquote [Block.Paragraph [Span.Text (chs ("a"))]]) =
      some (chs ("║ a\n\n")) ∧
    ∃ l ∈ splitOnNl (chs ("║ a\n\n")), startsWith (chs ("║ ")) l = false := by
  decide

/-- C6 (counterexample): with width 2 and the list prefix "* " (byte
length 2) the effective wrap width is 0; the text "ab" — whose only
token has display width 2 ≤ 2 — is broken per character and every
emitted line carries the 2-column marker plus content, giving lines of
display width 3 > 2. -/
theorem C6_counterexample :
    (∀ wd ∈ splitWords (chs ("ab")), strWidth wd ≤ 2) ∧
    wrap_and_prefix_text (chs ("ab")) (Pfx.List (chs ("* "))) (some 2) =
      some (chs ("* a\n  b")) ∧
    ∃ l ∈ splitOnNl (chs ("* a\n  b")), 2 < strWidth l := by
  decide

/-! ## Structure of wrapped output: lines, joins, markers -/

theorem greedyAux_ne_nil (m : Nat) (ws : List (List Char)) (line : List Char) :
    greedyAux m ws line ≠ [] := by
  induction ws generalizing line with
  | nil => simp [greedyAux]
  | cons wd tl ih =>
      by_cases h1 : line.isEmpty
      · by_cases h2 : strWidth wd ≤ m
        · simpa [greedyAux, h1, h2] using ih wd
        · simp [greedyAux, h1, h2, ih]
      · by_cases h3 : strWidth line + 1 + strWidth wd ≤ m
        · simpa [greedyAux, h1, h3] using ih (line ++ ' ' :: wd)
        · simp [greedyAux, h1, h3]

theorem wrapLines_ne_nil (m : Nat) (text : List Char) :
    wrapLines m text ≠ [] := greedyAux_ne_nil m (splitWords text) []

theorem splitOnNl_ne_nil (s : List Char) : splitOnNl s ≠ [] := by
  cases s with
  | nil => simp [splitOnNl]
  | cons c cs =>
      by_cases h : c = '\n'
      · simp [splitOnNl, h]
      · cases hs : splitOnNl cs <;> simp [splitOnNl, h, hs]

theorem splitOnNl_append_nl (x y : List Char) :
    splitOnNl (x ++ '\n' :: y) = splitOnNl x ++ splitOnNl y := by
  induction x with
  | nil => simp [splitOnNl]
  | cons c cs ih =>
      by_cases h : c = '\n'
      · simp [splitOnNl, h, ih]
      · rcases hs : splitOnNl cs with _ | ⟨l, ls⟩
        · exact absurd hs (splitOnNl_ne_nil cs)
        · simp [splitOnNl, h, ih, hs]

theorem splitOnNl_eq_single (s : List Char) (h : '\n' ∉ s) :
    splitOnNl s = [s] := by
  induction s with
  | nil => rfl
  | cons c cs ih =>
      have hc : ¬ c = '\n' := fun hc => h (hc ▸ List.mem_cons_self c cs)
      have hcs : '\n' ∉ cs := fun hm => h (List.mem_cons_of_mem c hm)
      simp [splitOnNl, hc, ih hcs]

theorem splitOnNl_joinNl (xs : List (List Char)) (hne : xs ≠ [])
    (h : ∀ x ∈ xs, '\n' ∉ x) : splitOnNl (joinNl xs) = xs := by
  induction xs with
  | nil => exact absurd rfl hne
  | cons x rest ih =>
      cases rest with
      | nil => simpa [joinNl] using splitOnNl_eq_single x (h x (by simp))
      | cons y tl =>
          have e : joinNl (x :: y :: tl) = x ++ '\n' :: joinNl (y :: tl) := rfl
          rw [e, splitOnNl_append_nl, splitOnNl_eq_single x (h x (by simp)),
            ih (by simp) (fun z hz => h z (List.mem_cons_of_mem x hz))]
          rfl

theorem dropLast_append_ne_nil (a b : List Char) (h : b ≠ []) :
    (a ++ b).dropLast = a ++ b.dropLast := by
  cases b with
  | nil => exact absurd rfl h
  | cons c cs => exact List.dropLast_append_cons

theorem prefixConcat_ne_nil (p : List Char) (x : List Char) (ls : List (List Char)) :
    prefixConcat p (x :: ls) ≠ [] := by
  simp [prefixConcat]

theorem prefixConcat_dropLast (p : List Char) (ls : List (List Char)) (h : ls ≠ []) :
    (prefixConcat p ls).dropLast = joinNl (ls.map (fun l => p ++ l)) := by
  induction ls with
  | nil => exact absurd rfl h
  | cons x rest ih =>
      cases rest with
      | nil =>
          show (p ++ x ++ ['\n']).dropLast = p ++ x
          rw [List.append_assoc, dropLast_append_ne_nil p (x ++ ['\n']) (by simp),
            dropLast_append_ne_nil x ['\n'] (by simp)]
          simp
      | cons y tl =>
          show (p ++ x ++ '\n' :: prefixConcat p (y :: tl)).dropLast = _
          rw [List.append_assoc,
            dropLast_append_ne_nil p (x ++ '\n' :: prefixConcat p (y :: tl)) (by simp),
            dropLast_append_ne_nil x ('\n' :: prefixConcat p (y :: tl)) (by simp)]
          have hnn : prefixConcat p (y :: tl) ≠ [] := prefixConcat_ne_nil p y tl
          rw [show ('\n' :: prefixConcat p (y :: tl)).dropLast =
              '\n' :: (prefixConcat p (y :: tl)).dropLast from by
            cases hpc : prefixConcat p (y :: tl) with
            | nil => exact absurd hpc hnn
            | cons d ds => simp [hpc]]
          rw [ih (by simp)]
          simp [joinNl, List.append_assoc]

theorem wrap_simple_eq (text p : List Char) (w : Nat) (hb : byteLen p ≤ w) :
    wrap_and_prefix_text text (.Simple p) (some w) =
      some (joinNl ((wrapLines (w - byteLen p) text).map (fun l => p ++ l))) := by
  have e : wrap_and_prefix_text text (.Simple p) (some w) =
      if byteLen p ≤ w then
        some (prefixConcat p (wrapLines (w - byteLen p) text)).dropLast
      else none := rfl
  rw [e, if_pos hb, prefixConcat_dropLast p _ (wrapLines_ne_nil _ text)]

theorem wrap_list_eq (text p : List Char) (w : Nat) (hb : byteLen p ≤ w)
    (f : List Char) (rest : List (List Char))
    (hw : wrapLines (w - byteLen p) text = f :: rest) :
    wrap_and_prefix_text text (.List p) (some w) =
      some (joinNl ((p ++ f) ::
        rest.map (fun l => List.replicate (byteLen p) ' ' ++ l))) := by
  have e : wrap_and_prefix_text text (.List p) (some w) =
      if byteLen p ≤ w then
        (match wrapLines (w - byteLen p) text with
         | [] => some []
         | first :: rest => some (p ++ first ++ '\n' ::
             prefixConcat (List.replicate (byteLen p) ' ') rest).dropLast)
      else none := rfl
  rw [e, if_pos hb]
  simp only [hw]
  cases rest with
  | nil =>
      show some (p ++ f ++ ['\n']).dropLast = _
      rw [List.append_assoc, dropLast_append_ne_nil p (f ++ ['\n']) (by simp),
        dropLast_append_ne_nil f ['\n'] (by simp)]
      simp [joinNl]
  | cons y tl =>
      show some (p ++ f ++ '\n' ::
        prefixConcat (List.replicate (byteLen p) ' ') (y :: tl)).dropLast = _
      have hnn := prefixConcat_ne_nil (List.replicate (byteLen p) ' ') y tl
      rw [List.append_assoc, dropLast_append_ne_nil p _ (by simp),
        dropLast_append_ne_nil f _ (by simp)]
      rw [show ('\n' :: prefixConcat (List.replicate (byteLen p) ' ') (y :: tl)).dropLast =
          '\n' :: (prefixConcat (List.replicate (byteLen p) ' ') (y :: tl)).dropLast from by
        cases hpc : prefixConcat (List.replicate (byteLen p) ' ') (y :: tl) with
        | nil => exact absurd hpc hnn
        | cons d ds => simp [hpc]]
      rw [prefixConcat_dropLast _ _ (by simp)]
      simp [joinNl, List.append_assoc]

theorem startsWith_append_self (p s : List Char) :
    startsWith p (p ++ s) = true := by
  induction p with
  | nil => rfl
  | cons c cs ih => simp [startsWith, ih]

/-! ## Characters of wrapped lines -/

theorem splitWordsAux_no_ws (s : List Char) :
    ∀ acc, (∀ c ∈ acc, isWs c = false) →
    ∀ wd ∈ splitWordsAux s acc, ∀ c ∈ wd, isWs c = false := by
  induction s with
  | nil =>
      intro acc hacc wd hwd c hc
      by_cases h : acc.isEmpty
      · simp [splitWordsAux, h] at hwd
      · simp [splitWordsAux, h] at hwd
        subst hwd
        exact hacc c (List.mem_reverse.mp hc)
  | cons d ds ih =>
      intro acc hacc wd hwd c hc
      by_cases h : isWs d
      · by_cases he : acc.isEmpty
        · rw [splitWordsAux, if_pos h, if_pos he] at hwd
          exact ih [] (by simp) wd hwd c hc
        · rw [splitWordsAux, if_pos h, if_neg he] at hwd
          rcases List.mem_cons.mp hwd with h1 | h1
          · subst h1
            exact hacc c (List.mem_reverse.mp hc)
          · exact ih [] (by simp) wd h1 c hc
      · rw [splitWordsAux, if_neg h] at hwd
        refine ih (d :: acc) ?_ wd hwd c hc
        intro e he
        rcases List.mem_cons.mp he with h1 | h1
        · subst h1
          exact Bool.not_eq_true _ ▸ (by simpa using h)
        · exact hacc e h1

theorem splitWords_no_ws (s : List Char) :
    ∀ wd ∈ splitWords s, ∀ c ∈ wd, isWs c = false :=
  splitWordsAux_no_ws s [] (by simp)

theorem chunkAux_chars (m : Nat) (s : List Char) :
    ∀ w acc, ∀ l ∈ chunkAux m s w acc, ∀ c ∈ l, c ∈ s ∨ c ∈ acc := by
  induction s with
  | nil =>
      intro w acc l hl c hc
      by_cases h : acc.isEmpty
      · simp [chunkAux, h] at hl
      · simp [chunkAux, h] at hl
        subst hl
        exact Or.inr (List.mem_reverse.mp hc)
  | cons d ds ih =>
      intro w acc l hl c hc
      by_cases he : acc.isEmpty
      · rw [chunkAux, if_pos he] at hl
        rcases ih (charWidth d) [d] l hl c hc with h1 | h1
        · exact Or.inl (List.mem_cons_of_mem d h1)
        · simp at h1
          subst h1
          exact Or.inl (List.mem_cons_self _ _)
      · rw [chunkAux, if_neg he] at hl
        by_cases hf : w + charWidth d ≤ m
        · rw [if_pos hf] at hl
          rcases ih (w + charWidth d) (d :: acc) l hl c hc with h1 | h1
          · exact Or.inl (List.mem_cons_of_mem d h1)
          · rcases List.mem_cons.mp h1 with h2 | h2
            · subst h2
              exact Or.inl (List.mem_cons_self _ _)
            · exact Or.inr h2
        · rw [if_neg hf] at hl
          rcases List.mem_cons.mp hl with h1 | h1
          · subst h1
            exact Or.inr (List.mem_reverse.mp hc)
          · rcases ih (charWidth d) [d] l h1 c hc with h2 | h2
            · exact Or.inl (List.mem_cons_of_mem d h2)
            · simp at h2
              subst h2
              exact Or.inl (List.mem_cons_self _ _)

theorem chunkWord_chars (m : Nat) (wd : List Char) :
    ∀ l ∈ chunkWord m wd, ∀ c ∈ l, c ∈ wd := by
  intro l hl c hc
  rcases chunkAux_chars m wd 0 [] l hl c hc with h | h
  · exact h
  · simp at h

theorem emitChunks_fst_mem (cs : List (List Char)) :
    ∀ l ∈ (emitChunks cs).1, l ∈ cs := by
  induction cs with
  | nil => simp [emitChunks]
  | cons c tl ih =>
      cases tl with
      | nil => simp [emitChunks]
      | cons d ds =>
          intro l hl
          have he : (emitChunks (c :: d :: ds)).1 = c :: (emitChunks (d :: ds)).1 := rfl
          rw [he] at hl
          rcases List.mem_cons.mp hl with h1 | h1
          · subst h1
            exact List.mem_cons_self _ _
          · exact List.mem_cons_of_mem _ (ih l h1)

theorem emitChunks_snd_mem (cs : List (List Char)) :
    (emitChunks cs).2 = [] ∨ (emitChunks cs).2 ∈ cs := by
  induction cs with
  | nil => exact Or.inl rfl
  | cons c tl ih =>
      cases tl with
      | nil => exact Or.inr (by simp [emitChunks])
      | cons d ds =>
          have he : (emitChunks (c :: d :: ds)).2 = (emitChunks (d :: ds)).2 := rfl
          rw [he]
          rcases ih with h | h
          · exact Or.inl h
          · exact Or.inr (List.mem_cons_of_mem _ h)

theorem greedyAux_chars (m : Nat) (P : Char → Prop) (hsp : P ' ')
    (ws : List (List Char)) :
    ∀ line, (∀ wd ∈ ws, ∀ c ∈ wd, P c) → (∀ c ∈ line, P c) →
    ∀ l ∈ greedyAux m ws line, ∀ c ∈ l, P c := by
  induction ws with
  | nil =>
      intro line _ hline l hl c hc
      simp [greedyAux] at hl
      subst hl
      exact hline c hc
  | cons wd tl ih =>
      intro line hws hline l hl c hc
      have hwd : ∀ c ∈ wd, P c := hws wd (List.mem_cons_self _ _)
      have htl : ∀ w' ∈ tl, ∀ c ∈ w', P c :=
        fun w' h => hws w' (List.mem_cons_of_mem _ h)
      have hchunk : ∀ l' ∈ (emitChunks (chunkWord m wd)).1 ++
          greedyAux m tl (emitChunks (chunkWord m wd)).2, ∀ c' ∈ l', P c' := by
        intro l' hl' c' hc'
        rcases List.mem_append.mp hl' with h1 | h1
        · exact hwd c' (chunkWord_chars m wd l' (emitChunks_fst_mem _ l' h1) c' hc')
        · refine ih _ htl ?_ l' h1 c' hc'
          intro e he
          rcases emitChunks_snd_mem (chunkWord m wd) with h2 | h2
          · rw [h2] at he
            simp at he
          · exact hwd e (chunkWord_chars m wd _ h2 e he)
      by_cases h1 : line.isEmpty
      · by_cases h2 : strWidth wd ≤ m
        · rw [greedyAux, if_pos h1, if_pos h2] at hl
          exact ih wd htl hwd l hl c hc
        · rw [greedyAux, if_pos h1, if_neg h2] at hl
          exact hchunk l hl c hc
      · by_cases h3 : strWidth line + 1 + strWidth wd ≤ m
        · rw [greedyAux, if_neg h1, if_pos h3] at hl
          refine ih (line ++ ' ' :: wd) htl ?_ l hl c hc
          intro e he
          rcases List.mem_append.mp he with h4 | h4
          · exact hline e h4
          · rcases List.mem_cons.mp h4 with h5 | h5
            · subst h5; exact hsp
            · exact hwd e h5
        · rw [greedyAux, if_neg h1, if_neg h3] at hl
          rcases List.mem_cons.mp hl with h4 | h4
          · subst h4
            exact hline c hc
          · by_cases h2 : strWidth wd ≤ m
            · rw [if_pos h2] at h4
              exact ih wd htl hwd l h4 c hc
            · rw [if_neg h2] at h4
              exact hchunk l h4 c hc

theorem wrapLines_no_nl (m : Nat) (text : List Char) :
    ∀ l ∈ wrapLines m text, '\n' ∉ l := by
  intro l hl hmem
  have h := greedyAux_chars m (fun c => c ≠ '\n') (by decide)
    (splitWords text) []
    (fun wd hwd c hc => by
      intro hcontra
      have := splitWords_no_ws text wd hwd c hc
      rw [hcontra] at this
      simp [isWs] at this)
    (by simp) l hl '\n' hmem
  exact h rfl

/-! ## Width bound of wrapped lines -/

theorem greedyAux_width (m : Nat) (ws : List (List Char)) :
    ∀ line, (∀ wd ∈ ws, strWidth wd ≤ m) → strWidth line ≤ m →
    ∀ l ∈ greedyAux m ws line, strWidth l ≤ m := by
  induction ws with
  | nil =>
      intro line _ hline l hl
      simp [greedyAux] at hl
      subst hl
      exact hline
  | cons wd tl ih =>
      intro line hws hline l hl
      have hwd : strWidth wd ≤ m := hws wd (List.mem_cons_self _ _)
      have htl : ∀ w' ∈ tl, strWidth w' ≤ m :=
        fun w' h => hws w' (List.mem_cons_of_mem _ h)
      by_cases h1 : line.isEmpty
      · rw [greedyAux, if_pos h1, if_pos hwd] at hl
        exact ih wd htl hwd l hl
      · by_cases h3 : strWidth line + 1 + strWidth wd ≤ m
        · rw [greedyAux, if_neg h1, if_pos h3] at hl
          refine ih (line ++ ' ' :: wd) htl ?_ l hl
          rw [strWidth_append, strWidth_cons]
          have hspace : charWidth ' ' = 1 := by decide
          omega
        · rw [greedyAux, if_neg h1, if_neg h3, if_pos hwd] at hl
          rcases List.mem_cons.mp hl with h4 | h4
          · subst h4
            exact hline
          · exact ih wd htl hwd l h4

theorem wrapLines_width (m : Nat) (text : List Char)
    (htok : ∀ wd ∈ splitWords text, strWidth wd ≤ m) :
    ∀ l ∈ wrapLines m text, strWidth l ≤ m :=
  greedyAux_width m (splitWords text) [] htok (by simp [strWidth])

/-! ## C6 (amended): line-width bound -/

/-- C6 (amended): for width Some(w) and a newline-free prefix whose
byte length fits in w, if no unbreakable token of the text is wider
than the effective wrap width w minus the prefix's byte length (for
Prefix::None, than w itself), then no emitted line has display width
exceeding w.  The original claim — tokens merely no wider than w —
fails (C6_counterexample) because the body is wrapped to the narrower
effective width, where over-wide tokens are broken at a minimum of one
character per line. -/
theorem C6_line_bound (text : List Char) (w : Nat) (pfx : Pfx)
    (hb : pfxBytes pfx ≤ w) (hnl : pfxNoNl pfx = true)
    (htok : ∀ wd ∈ splitWords text, strWidth wd ≤ w - pfxBytes pfx) :
    ∃ out, wrap_and_prefix_text text pfx (some w) = some out ∧
      ∀ l ∈ splitOnNl out, strWidth l ≤ w := by
  cases pfx with
  | None =>
      refine ⟨fill w text, rfl, ?_⟩
      have htok' : ∀ wd ∈ splitWords text, strWidth wd ≤ w := by
        intro wd hwd
        have h := htok wd hwd
        simp only [pfxBytes, Nat.sub_zero] at h
        exact h
      simp only [fill]
      rw [splitOnNl_joinNl _ (wrapLines_ne_nil w text)
        (fun x hx => wrapLines_no_nl w text x hx)]
      exact wrapLines_width w text htok'
  | Simple p =>
      simp only [pfxBytes] at hb htok
      simp only [pfxNoNl, decide_eq_true_eq] at hnl
      refine ⟨_, wrap_simple_eq text p w hb, ?_⟩
      rw [splitOnNl_joinNl]
      · intro l hl
        obtain ⟨l0, hl0, rfl⟩ := List.mem_map.mp hl
        rw [strWidth_append]
        have h1 := wrapLines_width (w - byteLen p) text htok l0 hl0
        have h2 := strWidth_le_byteLen p
        omega
      · intro hcontra
        exact wrapLines_ne_nil (w - byteLen p) text (List.map_eq_nil_iff.mp hcontra)
      · intro x hx
        obtain ⟨l0, hl0, rfl⟩ := List.mem_map.mp hx
        intro hmem
        rcases List.mem_append.mp hmem with h | h
        · exact hnl h
        · exact wrapLines_no_nl _ text l0 hl0 h
  | List p =>
      simp only [pfxBytes] at hb htok
      simp only [pfxNoNl, decide_eq_true_eq] at hnl
      rcases hwl : wrapLines (w - byteLen p) text with _ | ⟨f, rest⟩
      · exact absurd hwl (wrapLines_ne_nil _ text)
      · have hfmem : f ∈ wrapLines (w - byteLen p) text := by
          rw [hwl]; exact List.mem_cons_self _ _
        have hrest : ∀ r ∈ rest, r ∈ wrapLines (w - byteLen p) text := by
          intro r hr
          rw [hwl]
          exact List.mem_cons_of_mem _ hr
        refine ⟨_, wrap_list_eq text p w hb f rest hwl, ?_⟩
        rw [splitOnNl_joinNl]
        · intro l hl
          rcases List.mem_cons.mp hl with h | h
          · subst h
            rw [strWidth_append]
            have h1 := wrapLines_width (w - byteLen p) text htok f hfmem
            have h2 := strWidth_le_byteLen p
            omega
          · obtain ⟨r, hr, rfl⟩ := List.mem_map.mp h
            rw [strWidth_append, strWidth_replicate_space]
            have h1 := wrapLines_width (w - byteLen p) text htok r (hrest r hr)
            omega
        · simp
        · intro x hx
          rcases List.mem_cons.mp hx with h | h
          · subst h
            intro hmem
            rcases List.mem_append.mp hmem with h | h
            · exact hnl h
            · exact wrapLines_no_nl _ text f hfmem h
          · obtain ⟨r, hr, rfl⟩ := List.mem_map.mp h
            intro hmem
            rcases List.mem_append.mp hmem with h | h
            · have := List.eq_of_mem_replicate h
              simp at this
            · exact wrapLines_no_nl _ text r (hrest r hr) h

/-- Closed witness for C6_line_bound: the prefix "> " (2 bytes, no
newline) at width 20, text "hello world" whose tokens have width
5 ≤ 18. -/
theorem C6_witness :
    (pfxBytes (Pfx.Simple (chs ("> "))) ≤ 20 ∧
     pfxNoNl (Pfx.Simple (chs ("> "))) = true ∧
     ∀ wd ∈ splitWords (chs ("hello world")),
       strWidth wd ≤ 20 - pfxBytes (Pfx.Simple (chs ("> ")))) ∧
    ∃ out, wrap_and_prefix_text (chs ("hello world"))
        (Pfx.Simple (chs ("> "))) (some 20) = some out ∧
      ∀ l ∈ splitOnNl out, strWidth l ≤ 20 :=
  ⟨⟨by decide, by decide, by decide⟩,
   C6_line_bound (chs ("hello world")) 20 (Pfx.Simple (chs ("> ")))
     (by decide) (by decide) (by decide)⟩

/-! ## C1 (amended): quote markers on blockquote lines -/

theorem textual_child_lines (text : List Char) (w : Nat) (hw : 4 ≤ w) :
    ∃ body, wrap_and_prefix_text text (.Simple QUOTE_MARKER) (some w) = some body ∧
      ∀ l ∈ splitOnNl body, startsWith QUOTE_MARKER l = true := by
  have hb : byteLen QUOTE_MARKER ≤ w := by
    have h4 : byteLen QUOTE_MARKER = 4 := by decide
    omega
  refine ⟨_, wrap_simple_eq text QUOTE_MARKER w hb, ?_⟩
  rw [splitOnNl_joinNl]
  · intro l hlm
    obtain ⟨l0, hl0, rfl⟩ := List.mem_map.mp hlm
    exact startsWith_append_self QUOTE_MARKER l0
  · intro hcontra
    exact wrapLines_ne_nil _ text (List.map_eq_nil_iff.mp hcontra)
  · intro x hx
    obtain ⟨l0, hl0, rfl⟩ := List.mem_map.mp hx
    intro hmem
    rcases List.mem_append.mp hmem with h | h
    · exact absurd h (by decide)
    · exact wrapLines_no_nl _ text l0 hl0 h

theorem quote_step_lines (text : List Char) (w : Nat) (hw : 4 ≤ w)
    (out2 : List Char)
    (hp2 : ∀ l ∈ splitOnNl out2, l = [] ∨ startsWith QUOTE_MARKER l = true) :
    ∃ body, wrap_and_prefix_text text (.Simple QUOTE_MARKER) (some w) = some body ∧
      ∀ l ∈ splitOnNl ((body ++ chs ("\n\n")) ++ out2),
        l = [] ∨ startsWith QUOTE_MARKER l = true := by
  obtain ⟨body, hbody, hstarts⟩ := textual_child_lines text w hw
  refine ⟨body, hbody, ?_⟩
  intro l hlm
  have e : (body ++ chs ("\n\n")) ++ out2 = body ++ '\n' :: ('\n' :: out2) := by
    rw [List.append_assoc]
    rfl
  rw [e, splitOnNl_append_nl] at hlm
  rcases List.mem_append.mp hlm with h | h
  · exact Or.inr (hstarts l h)
  · have e2 : splitOnNl ('\n' :: out2) = [] :: splitOnNl out2 := by
      simp [splitOnNl]
    rw [e2] at h
    rcases List.mem_cons.mp h with h1 | h1
    · exact Or.inl h1
    · exact hp2 l h1

theorem printQuoteBlocks_lines {σ : Type} (hl : σ → List Char → List Char × σ)
    (s0 : σ) (ho : List Char → List Char) (w : Nat) (hw : 4 ≤ w)
    (children : List Block) (hk : ∀ b ∈ children, isTextualBlock b = true) :
    ∃ out, printQuoteBlocks hl s0 ho (some w) children = some out ∧
      ∀ l ∈ splitOnNl out, l = [] ∨ startsWith QUOTE_MARKER l = true := by
  induction children with
  | nil =>
      refine ⟨[], rfl, ?_⟩
      intro l hlm
      simp [splitOnNl] at hlm
      exact Or.inl hlm
  | cons b rest ih =>
      obtain ⟨out2, h2, hp2⟩ := ih (fun b' hb' => hk b' (List.mem_cons_of_mem _ hb'))
      have hb1 : isTextualBlock b = true := hk b (List.mem_cons_self _ _)
      cases b with
      | Header spans lvl =>
          obtain ⟨body, hbody, hall⟩ :=
            quote_step_lines (joinSpans ho spans) w hw out2 hp2
          refine ⟨(body ++ chs ("\n\n")) ++ out2, ?_, hall⟩
          have e1 : printQuoteBlocks hl s0 ho (some w) (Block.Header spans lvl :: rest) =
              (do
                let x ← (do
                  let out ← wrap_and_prefix_text (joinSpans ho spans)
                    (.Simple QUOTE_MARKER) (some w)
                  pure (out ++ chs ("\n\n")) : Option (List Char))
                let y ← printQuoteBlocks hl s0 ho (some w) rest
                pure (x ++ y) : Option (List Char)) := rfl
          rw [e1, hbody, h2]
          rfl
      | Paragraph spans =>
          obtain ⟨body, hbody, hall⟩ :=
            quote_step_lines (joinSpans ho spans) w hw out2 hp2
          refine ⟨(body ++ chs ("\n\n")) ++ out2, ?_, hall⟩
          have e1 : printQuoteBlocks hl s0 ho (some w) (Block.Paragraph spans :: rest) =
              (do
                let x ← (do
                  let out ← wrap_and_prefix_text (joinSpans ho spans)
                    (.Simple QUOTE_MARKER) (some w)
                  pure (out ++ chs ("\n\n")) : Option (List Char))
                let y ← printQuoteBlocks hl s0 ho (some w) rest
                pure (x ++ y) : Option (List Char)) := rfl
          rw [e1, hbody, h2]
          rfl
      | Blockquote blocks => simp [isTextualBlock] at hb1
      | CodeBlock lang code => simp [isTextualBlock] at hb1
      | OrderedList items typ => simp [isTextualBlock] at hb1
      | UnorderedList items => simp [isTextualBlock] at hb1
      | Raw s => simp [isTextualBlock] at hb1
      | Hr => simp [isTextualBlock] at hb1

/-- C1 (amended): for a Blockquote whose children are Paragraphs or
Headers, rendered at a known width w ≥ 4 (the marker's byte length),
every emitted line either begins with the quote marker "║ " or is
empty — the blank separator lines emitted after each child block are
empty rather than marker-prefixed, contrary to the original claim
(C1_counterexample). -/
theorem C1_blockquote_lines {σ : Type} (hl : σ → List Char → List Char × σ)
    (s0 : σ) (ho : List Char → List Char) (p : Pfx) (children : List Block)
    (w : Nat) (hw : 4 ≤ w) (hk : ∀ b ∈ children, isTextualBlock b = true) :
    ∃ out, printBlock hl s0 ho (some w) p (.Blockquote children) = some out ∧
      ∀ l ∈ splitOnNl out, l = [] ∨ startsWith QUOTE_MARKER l = true :=
  printQuoteBlocks_lines hl s0 ho w hw children hk

/-- Closed witness for C1_blockquote_lines at a concrete input. -/
theorem C1_witness :
    ((4 : Nat) ≤ 10 ∧
     ∀ b ∈ [Block.Paragraph [Span.Text (chs ("hi"))]], isTextualBlock b = true) ∧
    ∃ out, printBlock (fun (s : Unit) l => (l, s)) () (fun l => l) (some 10)
        Pfx.None (.Blockquote [Block.Paragraph [Span.Text (chs ("hi"))]]) = some out ∧
      ∀ l ∈ splitOnNl out, l = [] ∨ startsWith QUOTE_MARKER l = true :=
  ⟨⟨by decide, by decide⟩,
   C1_blockquote_lines (fun (s : Unit) l => (l, s)) () (fun l => l) Pfx.None
     [Block.Paragraph [Span.Text (chs ("hi"))]] 10 (by decide) (by decide)⟩

end CargoExplain
